import Mathlib

/-!
Shallow embedding of `src/main.cpp` from the parallel_summation repository.

The C++ `int` is modelled as a mathematical integer normalised into
`[-2^31, 2^31)`; every `+=` on an `int` accumulator goes through `i32add`,
which wraps modulo `2^32` (two's-complement wraparound, the semantics the
spec fixes for overflow).  Array reads are bounds-checked: `none` models an
out-of-bounds access or an integer division by zero, i.e. the error branch.
Thread scheduling is sequentialised: each strategy runs its workers in
index order, which is sound because the per-worker effects commute.
-/

namespace ParallelSummation

/-- Two's-complement wrap of an integer into the 32-bit signed range,
modelling C++ `int` arithmetic with wraparound overflow. -/
def wrap32 (x : Int) : Int := (x + 2147483648) % 4294967296 - 2147483648

/-- One `int` addition `a + b` as performed on an `int` accumulator. -/
def i32add (a b : Int) : Int := wrap32 (a + b)

/-- The loop `for (i = s; i < e; ++i) acc += arr[i]` shared by all workers
and the single-threaded baseline; `none` models an out-of-bounds read. -/
def sumRange (arr : List Int) (s e : Nat) (acc : Int) : Option Int :=
  if s < e then
    match arr[s]? with
    | some v => sumRange arr (s + 1) e (i32add acc v)
    | none => none
  else
    some acc
termination_by e - s

/-- `single_thread_sum` from src/main.cpp lines 10-16. -/
def single_thread_sum (arr : List Int) : Option Int :=
  sumRange arr 0 arr.length 0

/-- `chunk_size = n / num_threads` (src/main.cpp line 20). -/
def chunk_size (n T : Nat) : Nat := n / T

/-- `start = thread_idx * chunk_size` (src/main.cpp line 21). -/
def chunk_start (n T i : Nat) : Nat := i * chunk_size n T

/-- `end = (thread_idx == num_threads - 1) ? n : (thread_idx + 1) * chunk_size`
(src/main.cpp line 22). -/
def chunk_end (n T i : Nat) : Nat :=
  if i = T - 1 then n else (i + 1) * chunk_size n T

/-- `thread_sum_lock` (src/main.cpp lines 18-30): compute the local sum over
the worker's chunk, then `sum += local_sum` under the mutex. -/
def thread_sum_lock (i : Nat) (arr : List Int) (sum : Int) (T : Nat) : Option Int :=
  match sumRange arr (chunk_start arr.length T i) (chunk_end arr.length T i) 0 with
  | some l => some (i32add sum l)
  | none => none

/-- The spawn/join loop of `multi_thread_sum_lock`, with lock acquisitions
sequentialised in worker order. -/
def lockJoin (arr : List Int) (T i : Nat) (sum : Int) : Option Int :=
  if i < T then
    match thread_sum_lock i arr sum T with
    | some s => lockJoin arr T (i + 1) s
    | none => none
  else
    some sum
termination_by T - i

/-- `multi_thread_sum_lock` (src/main.cpp lines 32-47). -/
def multi_thread_sum_lock (arr : List Int) (T : Nat) : Option Int :=
  lockJoin arr T 0 0

/-- `thread_sum_atomic` (src/main.cpp lines 49-60): local sum over the chunk
followed by one `fetch_add` on the shared atomic. -/
def thread_sum_atomic (i : Nat) (arr : List Int) (sum : Int) (T : Nat) : Option Int :=
  match sumRange arr (chunk_start arr.length T i) (chunk_end arr.length T i) 0 with
  | some l => some (i32add sum l)
  | none => none

/-- The spawn/join loop of `multi_thread_sum_atomic`, with the linearizable
fetch-and-adds sequentialised in worker order. -/
def atomicJoin (arr : List Int) (T i : Nat) (sum : Int) : Option Int :=
  if i < T then
    match thread_sum_atomic i arr sum T with
    | some s => atomicJoin arr T (i + 1) s
    | none => none
  else
    some sum
termination_by T - i

/-- `multi_thread_sum_atomic` (src/main.cpp lines 62-78).  Line 66 computes
`n / num_threads` in the parent thread, so `T = 0` is a division by zero
(undefined behaviour), modelled by the error branch. -/
def multi_thread_sum_atomic (arr : List Int) (T : Nat) : Option Int :=
  if T = 0 then none else atomicJoin arr T 0 0

/-- `thread_sum_reduce` (src/main.cpp lines 80-90): the worker writes its
local sum into its private slot. -/
def thread_sum_reduce (i : Nat) (arr : List Int) (T : Nat) : Option Int :=
  sumRange arr (chunk_start arr.length T i) (chunk_end arr.length T i) 0

/-- The spawn/join loop of `multi_thread_sum_reduce`, collecting the
per-worker slots of `partial_sums` in index order. -/
def reduceJoin (arr : List Int) (T i : Nat) : Option (List Int) :=
  if i < T then
    match thread_sum_reduce i arr T, reduceJoin arr T (i + 1) with
    | some p, some ps => some (p :: ps)
    | _, _ => none
  else
    some []
termination_by T - i

/-- `multi_thread_sum_reduce` (src/main.cpp lines 92-113): after the join
barrier, `total_sum += ps` over the slots in order.  Line 96 computes
`n / num_threads` in the parent thread, so `T = 0` is a division by zero,
modelled by the error branch. -/
def multi_thread_sum_reduce (arr : List Int) (T : Nat) : Option Int :=
  if T = 0 then none
  else (reduceJoin arr T 0).map (fun ps => ps.foldl i32add 0)

/-! ### Argument parsing (`parse_args`, src/main.cpp lines 115-124)

`zen::cmd_args` is an external library, so options are abstracted to a
presence flag and the first option value as a string.  `std::stoi` is
standard-library code with fixed semantics; it is modelled below
(`std::out_of_range` on huge values is not modelled — no claim needs it).
`std::thread::hardware_concurrency()` is modelled as a parameter `hc`,
which per the C++ standard is `0` when the hint is unavailable. -/

/-- Value of a maximal leading run of decimal digits, most significant
first, as accumulated by `std::stoi`. -/
def digitsToNat (cs : List Char) (acc : Nat) : Nat :=
  match cs with
  | [] => acc
  | c :: rest => if c.isDigit then digitsToNat rest (acc * 10 + (c.toNat - 48)) else acc

/-- Whether the character list starts with a decimal digit. -/
def hasLeadingDigit : List Char → Bool
  | c :: _ => c.isDigit
  | [] => false

/-- Model of `std::stoi` on a character list: skip whitespace, optional
sign, then at least one digit; `none` models the `std::invalid_argument`
throw when no conversion can be performed. -/
def stoiChars (cs : List Char) : Option Int :=
  match cs.dropWhile (fun c => c.isWhitespace) with
  | '-' :: rest =>
      if hasLeadingDigit rest then some (-(digitsToNat rest 0 : Int)) else none
  | '+' :: rest =>
      if hasLeadingDigit rest then some ((digitsToNat rest 0 : Int)) else none
  | rest =>
      if hasLeadingDigit rest then some ((digitsToNat rest 0 : Int)) else none

/-- Model of `std::stoi` on a string. -/
def stoi (s : String) : Option Int := stoiChars s.data

/-- `parse_args` (src/main.cpp lines 115-124).  Returns the `(size, thread)`
pair together with a flag recording whether the warning was logged; `none`
models the uncaught exception from `std::stoi` on a malformed value. -/
def parse_args (sizePresent threadPresent : Bool) (sizeStr threadStr : String)
    (hc : Nat) : Option ((Int × Int) × Bool) :=
  if !sizePresent || !threadPresent then
    some ((1000000, (hc : Int)), true)
  else
    match stoi sizeStr, stoi threadStr with
    | some s, some t => some ((s, t), false)
    | _, _ => none

/-! ### State-passing variants

The array is the only store the summation functions can reach (it is passed
by reference in the source); these variants thread it through every worker
call and return it, so that the absence of mutation is a provable
postcondition rather than a modelling assumption. -/

/-- State-passing form of the worker loop: the array state is carried
through each iteration and returned. -/
def sumRangeSt (s e : Nat) (acc : Int) (st : List Int) : Option (Int × List Int) :=
  if s < e then
    match st[s]? with
    | some v => sumRangeSt (s + 1) e (i32add acc v) st
    | none => none
  else
    some (acc, st)
termination_by e - s

/-- State-passing form of `single_thread_sum`. -/
def single_thread_sum_st (arr : List Int) : Option (Int × List Int) :=
  sumRangeSt 0 arr.length 0 arr

/-- State-passing spawn/join loop of the lock strategy: each worker receives
the array state left by the previous one. -/
def lockJoinSt (T i : Nat) (sum : Int) (st : List Int) : Option (Int × List Int) :=
  if i < T then
    match sumRangeSt (chunk_start st.length T i) (chunk_end st.length T i) 0 st with
    | some (l, st2) => lockJoinSt T (i + 1) (i32add sum l) st2
    | none => none
  else
    some (sum, st)
termination_by T - i

/-- State-passing form of `multi_thread_sum_lock`. -/
def multi_thread_sum_lock_st (arr : List Int) (T : Nat) : Option (Int × List Int) :=
  lockJoinSt T 0 0 arr

/-- State-passing form of `multi_thread_sum_atomic` (same worker loop, with
the parent division-by-zero guard). -/
def multi_thread_sum_atomic_st (arr : List Int) (T : Nat) : Option (Int × List Int) :=
  if T = 0 then none else lockJoinSt T 0 0 arr

/-- State-passing spawn/join loop of the reduce strategy, collecting the
slots while threading the array state. -/
def reduceJoinSt (T i : Nat) (st : List Int) : Option (List Int × List Int) :=
  if i < T then
    match sumRangeSt (chunk_start st.length T i) (chunk_end st.length T i) 0 st with
    | some (p, st2) =>
        match reduceJoinSt T (i + 1) st2 with
        | some (ps, st3) => some (p :: ps, st3)
        | none => none
    | none => none
  else
    some ([], st)
termination_by T - i

/-- State-passing form of `multi_thread_sum_reduce`. -/
def multi_thread_sum_reduce_st (arr : List Int) (T : Nat) : Option (Int × List Int) :=
  if T = 0 then none
  else (reduceJoinSt T 0 arr).map (fun p => (p.1.foldl i32add 0, p.2))

/-! ### Specification-side helpers -/

/-- Unwrapped (true mathematical) sum of `arr` over the index range
`[s, e)`; the reference value the wrapped loops are compared against. -/
def rsum (arr : List Int) (s e : Nat) : Int :=
  if s < e then arr[s]?.getD 0 + rsum arr (s + 1) e else 0
termination_by e - s

/-- Unwrapped sum of the chunk sums of workers `i, i+1, ..., T-1`. -/
def csumFrom (arr : List Int) (T i : Nat) : Int :=
  if i < T then
    rsum arr (chunk_start arr.length T i) (chunk_end arr.length T i) + csumFrom arr T (i + 1)
  else 0
termination_by T - i

/-! ### Arithmetic lemmas about the wrapped 32-bit addition -/

theorem wrap32_zero : wrap32 0 = 0 := by unfold wrap32; decide

theorem wrap32_wrap_left (a b : Int) : wrap32 (wrap32 a + b) = wrap32 (a + b) := by
  unfold wrap32; omega

theorem wrap32_wrap_add (a b : Int) : wrap32 (wrap32 a + wrap32 b) = wrap32 (a + b) := by
  unfold wrap32; omega

theorem wrap32_eq_self (x : Int) (h1 : -2147483648 ≤ x) (h2 : x < 2147483648) :
    wrap32 x = x := by
  unfold wrap32; omega

theorem wrap32_range (x : Int) : -2147483648 ≤ wrap32 x ∧ wrap32 x < 2147483648 := by
  unfold wrap32; omega

/-! ### One-step equations for the recursive definitions -/

theorem sumRange_pos (arr : List Int) (s e : Nat) (acc : Int) (h : s < e) :
    sumRange arr s e acc =
      match arr[s]? with
      | some v => sumRange arr (s + 1) e (i32add acc v)
      | none => none := by
  rw [sumRange, if_pos h]

theorem sumRange_neg (arr : List Int) (s e : Nat) (acc : Int) (h : ¬ s < e) :
    sumRange arr s e acc = some acc := by
  rw [sumRange, if_neg h]

theorem rsum_pos (arr : List Int) (s e : Nat) (h : s < e) :
    rsum arr s e = arr[s]?.getD 0 + rsum arr (s + 1) e := by
  rw [rsum, if_pos h]

theorem rsum_neg (arr : List Int) (s e : Nat) (h : ¬ s < e) : rsum arr s e = 0 := by
  rw [rsum, if_neg h]

/-! ### The worker loop computes the wrapped range sum -/

theorem sumRange_eq (arr : List Int) (s e : Nat) (a : Int) (he : e ≤ arr.length) :
    sumRange arr s e (wrap32 a) = some (wrap32 (a + rsum arr s e)) := by
  by_cases h : s < e
  · have hs : s < arr.length := lt_of_lt_of_le h he
    have hv : arr[s]? = some arr[s] := List.getElem?_eq_getElem hs
    rw [sumRange_pos arr s e _ h, hv]
    have hadd : i32add (wrap32 a) arr[s] = wrap32 (a + arr[s]) := wrap32_wrap_left a arr[s]
    show sumRange arr (s + 1) e (i32add (wrap32 a) arr[s]) = some (wrap32 (a + rsum arr s e))
    rw [hadd, sumRange_eq arr (s + 1) e (a + arr[s]) he, rsum_pos arr s e h, hv]
    simp [add_assoc]
  · rw [sumRange_neg arr s e _ h, rsum_neg arr s e h, add_zero]
termination_by e - s

theorem sumRange_zero_eq (arr : List Int) (s e : Nat) (he : e ≤ arr.length) :
    sumRange arr s e 0 = some (wrap32 (rsum arr s e)) := by
  have h0 : (0 : Int) = wrap32 0 := wrap32_zero.symm
  rw [h0, sumRange_eq arr s e 0 he, zero_add]

theorem rsum_split (arr : List Int) (s m e : Nat) (h1 : s ≤ m) (h2 : m ≤ e) :
    rsum arr s e = rsum arr s m + rsum arr m e := by
  by_cases h : s < m
  · rw [rsum_pos arr s e (lt_of_lt_of_le h h2), rsum_pos arr s m h,
      rsum_split arr (s + 1) m e h h2]
    ring
  · have hsm : s = m := le_antisymm h1 (not_lt.mp h)
    subst hsm
    rw [rsum_neg arr s s (lt_irrefl s), zero_add]
termination_by m - s

/-! ### Chunk-bound arithmetic -/

theorem chunk_start_le_length (n T i : Nat) (hi : i ≤ T) : chunk_start n T i ≤ n := by
  unfold chunk_start chunk_size
  calc i * (n / T) ≤ T * (n / T) := Nat.mul_le_mul_right _ hi
    _ = n / T * T := Nat.mul_comm T _
    _ ≤ n := Nat.div_mul_le_self n T

theorem chunk_end_le_length (n T i : Nat) (hi : i < T) : chunk_end n T i ≤ n := by
  unfold chunk_end
  by_cases h : i = T - 1
  · rw [if_pos h]
  · rw [if_neg h]
    unfold chunk_size
    calc (i + 1) * (n / T) ≤ T * (n / T) := Nat.mul_le_mul_right _ hi
      _ = n / T * T := Nat.mul_comm T _
      _ ≤ n := Nat.div_mul_le_self n T

theorem chunk_start_le_end (n T i : Nat) (hi : i < T) :
    chunk_start n T i ≤ chunk_end n T i := by
  unfold chunk_end
  by_cases h : i = T - 1
  · rw [if_pos h]
    exact chunk_start_le_length n T i (le_of_lt hi)
  · rw [if_neg h]
    exact Nat.mul_le_mul_right _ (Nat.le_succ i)

theorem chunk_end_eq_start_succ (n T i : Nat) (h : i + 1 < T) :
    chunk_end n T i = chunk_start n T (i + 1) := by
  unfold chunk_end chunk_start
  rw [if_neg (by omega : ¬ i = T - 1)]

theorem chunk_end_last (n T : Nat) : chunk_end n T (T - 1) = n := by
  unfold chunk_end
  rw [if_pos rfl]

/-! ### The chunk sums telescope to the full range sum -/

theorem csumFrom_pos (arr : List Int) (T i : Nat) (h : i < T) :
    csumFrom arr T i =
      rsum arr (chunk_start arr.length T i) (chunk_end arr.length T i) +
        csumFrom arr T (i + 1) := by
  rw [csumFrom, if_pos h]

theorem csumFrom_neg (arr : List Int) (T i : Nat) (h : ¬ i < T) : csumFrom arr T i = 0 := by
  rw [csumFrom, if_neg h]

theorem csumFrom_eq (arr : List Int) (T i : Nat) (hi : i < T) :
    csumFrom arr T i = rsum arr (chunk_start arr.length T i) arr.length := by
  by_cases h : i + 1 < T
  · rw [csumFrom_pos arr T i hi, csumFrom_eq arr T (i + 1) h,
      chunk_end_eq_start_succ arr.length T i h]
    exact (rsum_split arr (chunk_start arr.length T i) (chunk_start arr.length T (i + 1))
      arr.length
      (by rw [← chunk_end_eq_start_succ arr.length T i h]
          exact chunk_start_le_end arr.length T i hi)
      (chunk_start_le_length arr.length T (i + 1) (le_of_lt h))).symm
  · have hlast : i = T - 1 := by omega
    rw [csumFrom_pos arr T i hi, csumFrom_neg arr T (i + 1) (by omega), add_zero, hlast,
      chunk_end_last arr.length T]
termination_by T - i

theorem csumFrom_zero (arr : List Int) (T : Nat) (hT : 1 ≤ T) :
    csumFrom arr T 0 = rsum arr 0 arr.length := by
  rw [csumFrom_eq arr T 0 hT]
  unfold chunk_start
  rw [Nat.zero_mul]

/-! ### Strategy-level results: every strategy computes `wrap32 (rsum arr 0 n)` -/

theorem single_thread_sum_eq (arr : List Int) :
    single_thread_sum arr = some (wrap32 (rsum arr 0 arr.length)) := by
  unfold single_thread_sum
  exact sumRange_zero_eq arr 0 arr.length (le_refl _)

theorem thread_sum_lock_eq (arr : List Int) (T i : Nat) (a : Int) (hi : i < T) :
    thread_sum_lock i arr (wrap32 a) T =
      some (wrap32 (a + rsum arr (chunk_start arr.length T i) (chunk_end arr.length T i))) := by
  unfold thread_sum_lock
  rw [sumRange_zero_eq arr _ _ (chunk_end_le_length arr.length T i hi)]
  show some (i32add (wrap32 a) (wrap32 _)) = _
  rw [show i32add (wrap32 a) (wrap32 (rsum arr (chunk_start arr.length T i)
    (chunk_end arr.length T i))) = wrap32 (a + rsum arr (chunk_start arr.length T i)
    (chunk_end arr.length T i)) from wrap32_wrap_add a _]

theorem lockJoin_pos (arr : List Int) (T i : Nat) (sum : Int) (h : i < T) :
    lockJoin arr T i sum =
      match thread_sum_lock i arr sum T with
      | some s => lockJoin arr T (i + 1) s
      | none => none := by
  rw [lockJoin, if_pos h]

theorem lockJoin_neg (arr : List Int) (T i : Nat) (sum : Int) (h : ¬ i < T) :
    lockJoin arr T i sum = some sum := by
  rw [lockJoin, if_neg h]

theorem lockJoin_eq (arr : List Int) (T i : Nat) (a : Int) :
    lockJoin arr T i (wrap32 a) = some (wrap32 (a + csumFrom arr T i)) := by
  by_cases h : i < T
  · rw [lockJoin_pos arr T i _ h, thread_sum_lock_eq arr T i a h]
    show lockJoin arr T (i + 1)
      (wrap32 (a + rsum arr (chunk_start arr.length T i) (chunk_end arr.length T i))) = _
    rw [lockJoin_eq arr T (i + 1)
      (a + rsum arr (chunk_start arr.length T i) (chunk_end arr.length T i)),
      csumFrom_pos arr T i h, add_assoc]
  · rw [lockJoin_neg arr T i _ h, csumFrom_neg arr T i h, add_zero]
termination_by T - i

theorem multi_thread_sum_lock_eq (arr : List Int) (T : Nat) (hT : 1 ≤ T) :
    multi_thread_sum_lock arr T = some (wrap32 (rsum arr 0 arr.length)) := by
  unfold multi_thread_sum_lock
  have h0 : (0 : Int) = wrap32 0 := wrap32_zero.symm
  rw [h0, lockJoin_eq arr T 0 0, zero_add, csumFrom_zero arr T hT]

theorem thread_sum_atomic_eq_lock : @thread_sum_atomic = @thread_sum_lock := rfl

theorem atomicJoin_eq_lockJoin (arr : List Int) (T i : Nat) (sum : Int) :
    atomicJoin arr T i sum = lockJoin arr T i sum := by
  by_cases h : i < T
  · rw [atomicJoin, if_pos h, lockJoin_pos arr T i sum h]
    show (match thread_sum_atomic i arr sum T with
      | some s => atomicJoin arr T (i + 1) s
      | none => none) = _
    rw [thread_sum_atomic_eq_lock]
    cases thread_sum_lock i arr sum T with
    | none => rfl
    | some s => exact atomicJoin_eq_lockJoin arr T (i + 1) s
  · rw [atomicJoin, if_neg h, lockJoin_neg arr T i sum h]
termination_by T - i

theorem multi_thread_sum_atomic_eq (arr : List Int) (T : Nat) (hT : 1 ≤ T) :
    multi_thread_sum_atomic arr T = some (wrap32 (rsum arr 0 arr.length)) := by
  unfold multi_thread_sum_atomic
  rw [if_neg (by omega : ¬ T = 0), atomicJoin_eq_lockJoin arr T 0 0]
  have h0 : (0 : Int) = wrap32 0 := wrap32_zero.symm
  rw [h0, lockJoin_eq arr T 0 0, zero_add, csumFrom_zero arr T hT]

theorem reduceJoin_pos (arr : List Int) (T i : Nat) (h : i < T) :
    reduceJoin arr T i =
      match thread_sum_reduce i arr T, reduceJoin arr T (i + 1) with
      | some p, some ps => some (p :: ps)
      | _, _ => none := by
  rw [reduceJoin, if_pos h]

theorem reduceJoin_neg (arr : List Int) (T i : Nat) (h : ¬ i < T) :
    reduceJoin arr T i = some ([] : List Int) := by
  rw [reduceJoin, if_neg h]

theorem reduceJoin_foldl (arr : List Int) (T i : Nat) :
    ∃ ps, reduceJoin arr T i = some ps ∧
      ∀ b : Int, ps.foldl i32add (wrap32 b) = wrap32 (b + csumFrom arr T i) := by
  by_cases h : i < T
  · obtain ⟨ps, hps, hfold⟩ := reduceJoin_foldl arr T (i + 1)
    refine ⟨wrap32 (rsum arr (chunk_start arr.length T i) (chunk_end arr.length T i)) :: ps,
      ?_, ?_⟩
    · rw [reduceJoin_pos arr T i h, hps]
      unfold thread_sum_reduce
      rw [sumRange_zero_eq arr _ _ (chunk_end_le_length arr.length T i h)]
    · intro b
      rw [List.foldl_cons]
      have hstep : i32add (wrap32 b)
          (wrap32 (rsum arr (chunk_start arr.length T i) (chunk_end arr.length T i))) =
          wrap32 (b + rsum arr (chunk_start arr.length T i) (chunk_end arr.length T i)) :=
        wrap32_wrap_add b _
      rw [hstep, hfold, csumFrom_pos arr T i h, add_assoc]
  · refine ⟨[], reduceJoin_neg arr T i h, ?_⟩
    intro b
    rw [List.foldl_nil, csumFrom_neg arr T i h, add_zero]
termination_by T - i

theorem multi_thread_sum_reduce_eq (arr : List Int) (T : Nat) (hT : 1 ≤ T) :
    multi_thread_sum_reduce arr T = some (wrap32 (rsum arr 0 arr.length)) := by
  unfold multi_thread_sum_reduce
  rw [if_neg (by omega : ¬ T = 0)]
  obtain ⟨ps, hps, hfold⟩ := reduceJoin_foldl arr T 0
  rw [hps]
  show some (ps.foldl i32add 0) = _
  have h0 : (0 : Int) = wrap32 0 := wrap32_zero.symm
  rw [h0, hfold 0, zero_add, csumFrom_zero arr T hT]

/-! ### State-passing variants coincide with the pure functions and leave the array intact -/

theorem sumRangeSt_eq (st : List Int) (s e : Nat) (a : Int) :
    sumRangeSt s e a st = (sumRange st s e a).map (fun r => (r, st)) := by
  by_cases h : s < e
  · rw [sumRangeSt, if_pos h, sumRange_pos st s e a h]
    cases hv : st[s]? with
    | none => rfl
    | some v =>
      show sumRangeSt (s + 1) e (i32add a v) st = (sumRange st (s + 1) e (i32add a v)).map
        (fun r => (r, st))
      exact sumRangeSt_eq st (s + 1) e (i32add a v)
  · rw [sumRangeSt, if_neg h, sumRange_neg st s e a h]
    rfl
termination_by e - s

theorem lockJoinSt_eq (T i : Nat) (a : Int) (st : List Int) :
    lockJoinSt T i a st = (lockJoin st T i a).map (fun r => (r, st)) := by
  by_cases h : i < T
  · rw [lockJoinSt, if_pos h, lockJoin_pos st T i a h]
    unfold thread_sum_lock
    rw [sumRangeSt_eq st (chunk_start st.length T i) (chunk_end st.length T i) 0]
    cases hv : sumRange st (chunk_start st.length T i) (chunk_end st.length T i) 0 with
    | none => rfl
    | some l =>
      show lockJoinSt T (i + 1) (i32add a l) st = (lockJoin st T (i + 1) (i32add a l)).map
        (fun r => (r, st))
      exact lockJoinSt_eq T (i + 1) (i32add a l) st
  · rw [lockJoinSt, if_neg h, lockJoin_neg st T i a h]
    rfl
termination_by T - i

theorem reduceJoinSt_eq (T i : Nat) (st : List Int) :
    reduceJoinSt T i st = (reduceJoin st T i).map (fun ps => (ps, st)) := by
  by_cases h : i < T
  · rw [reduceJoinSt, if_pos h, reduceJoin_pos st T i h]
    unfold thread_sum_reduce
    rw [sumRangeSt_eq st (chunk_start st.length T i) (chunk_end st.length T i) 0]
    cases hv : sumRange st (chunk_start st.length T i) (chunk_end st.length T i) 0 with
    | none => rfl
    | some p =>
      cases hr : reduceJoin st T (i + 1) with
      | none =>
        show (match reduceJoinSt T (i + 1) st with
          | some (ps, st3) => some (p :: ps, st3)
          | none => none) = none
        rw [reduceJoinSt_eq T (i + 1) st, hr]
        rfl
      | some ps =>
        show (match reduceJoinSt T (i + 1) st with
          | some (ps, st3) => some (p :: ps, st3)
          | none => none) = some (p :: ps, st)
        rw [reduceJoinSt_eq T (i + 1) st, hr]
        rfl
  · rw [reduceJoinSt, if_neg h, reduceJoin_neg st T i h]
    rfl
termination_by T - i

/-! ### The range sum over the whole array is the list sum -/

theorem rsum_drop (arr : List Int) (s : Nat) (hs : s ≤ arr.length) :
    rsum arr s arr.length = (arr.drop s).sum := by
  by_cases h : s < arr.length
  · have hv : arr[s]? = some arr[s] := List.getElem?_eq_getElem h
    rw [rsum_pos arr s arr.length h, hv, rsum_drop arr (s + 1) h,
      List.drop_eq_getElem_cons h, List.sum_cons]
    rfl
  · have hs2 : s = arr.length := le_antisymm hs (not_lt.mp h)
    subst hs2
    rw [rsum_neg arr arr.length arr.length (lt_irrefl _), List.drop_length, List.sum_nil]
termination_by arr.length - s

theorem rsum_full (arr : List Int) : rsum arr 0 arr.length = arr.sum := by
  rw [rsum_drop arr 0 (Nat.zero_le _), List.drop_zero]

/-- If two chunks with indices `i < j` both exist, chunk `i` ends no later
than chunk `j` starts. -/
theorem chunk_end_le_start_of_lt (n T i j : Nat) (hij : i < j) (hj : j < T) :
    chunk_end n T i ≤ chunk_start n T j := by
  unfold chunk_end chunk_start
  rw [if_neg (by omega : ¬ i = T - 1)]
  exact Nat.mul_le_mul_right _ (by omega)

/-! ### Claim theorems -/

/-- C1: for every integer array and every thread count `1 ≤ T ≤ size + 8`,
the four summation strategies agree: the lock, atomic and reduce results
all equal the single-threaded baseline. -/
theorem equivalence_of_strategies (arr : List Int) (T : Nat) (h1 : 1 ≤ T)
    (h2 : T ≤ arr.length + 8) :
    multi_thread_sum_lock arr T = single_thread_sum arr ∧
    multi_thread_sum_atomic arr T = single_thread_sum arr ∧
    multi_thread_sum_reduce arr T = single_thread_sum arr := by
  rw [single_thread_sum_eq arr, multi_thread_sum_lock_eq arr T h1,
    multi_thread_sum_atomic_eq arr T h1, multi_thread_sum_reduce_eq arr T h1]
  exact ⟨rfl, rfl, rfl⟩

theorem equivalence_of_strategies_witness :
    (1 ≤ 2 ∧ 2 ≤ ([1, 2, 3] : List Int).length + 8) ∧
    (multi_thread_sum_lock [1, 2, 3] 2 = single_thread_sum [1, 2, 3] ∧
     multi_thread_sum_atomic [1, 2, 3] 2 = single_thread_sum [1, 2, 3] ∧
     multi_thread_sum_reduce [1, 2, 3] 2 = single_thread_sum [1, 2, 3]) :=
  ⟨⟨by decide, by decide⟩, equivalence_of_strategies [1, 2, 3] 2 (by decide) (by decide)⟩

/-- C3: for any array and any thread count `T ≥ 1`, no strategy reaches the
error branch of the embedding: every array access is in bounds and no
division by zero occurs, so all four results are `some` values. -/
theorem strategies_never_fail (arr : List Int) (T : Nat) (hT : 1 ≤ T) :
    (single_thread_sum arr).isSome ∧ (multi_thread_sum_lock arr T).isSome ∧
    (multi_thread_sum_atomic arr T).isSome ∧ (multi_thread_sum_reduce arr T).isSome := by
  rw [single_thread_sum_eq arr, multi_thread_sum_lock_eq arr T hT,
    multi_thread_sum_atomic_eq arr T hT, multi_thread_sum_reduce_eq arr T hT]
  exact ⟨rfl, rfl, rfl, rfl⟩

theorem strategies_never_fail_witness :
    1 ≤ 3 ∧ ((single_thread_sum [7]).isSome ∧ (multi_thread_sum_lock [7] 3).isSome ∧
      (multi_thread_sum_atomic [7] 3).isSome ∧ (multi_thread_sum_reduce [7] 3).isSome) :=
  ⟨by decide, strategies_never_fail [7] 3 (by decide)⟩

/-- C2: for every `n ≥ 0` and `T ≥ 1`, the chunks are pairwise disjoint
(no index lies in two distinct chunks), their union is exactly `[0, n)`,
and the last chunk ends at `n`. -/
theorem chunks_partition_range (n T : Nat) (hT : 1 ≤ T) :
    (∀ i j k, i < T → j < T → chunk_start n T i ≤ k → k < chunk_end n T i →
      chunk_start n T j ≤ k → k < chunk_end n T j → i = j) ∧
    (∀ k, k < n ↔ ∃ i, i < T ∧ chunk_start n T i ≤ k ∧ k < chunk_end n T i) ∧
    chunk_end n T (T - 1) = n := by
  refine ⟨?_, ?_, chunk_end_last n T⟩
  · intro i j k hi hj hi1 hi2 hj1 hj2
    rcases Nat.lt_trichotomy i j with hij | hij | hij
    · exact absurd (lt_of_lt_of_le hi2 (le_trans (chunk_end_le_start_of_lt n T i j hij hj) hj1))
        (lt_irrefl k)
    · exact hij
    · exact absurd (lt_of_lt_of_le hj2 (le_trans (chunk_end_le_start_of_lt n T j i hij hi) hi1))
        (lt_irrefl k)
  · intro k
    constructor
    · intro hk
      by_cases hcase : k < (T - 1) * chunk_size n T
      · have hc : 0 < chunk_size n T := by
          rcases Nat.eq_zero_or_pos (chunk_size n T) with h0 | h0
          · rw [h0, Nat.mul_zero] at hcase
            omega
          · exact h0
        have hidx : k / chunk_size n T < T - 1 := (Nat.div_lt_iff_lt_mul hc).mpr hcase
        refine ⟨k / chunk_size n T, by omega, Nat.div_mul_le_self k _, ?_⟩
        unfold chunk_end
        rw [if_neg (by omega : ¬ k / chunk_size n T = T - 1)]
        calc k = chunk_size n T * (k / chunk_size n T) + k % chunk_size n T :=
              (Nat.div_add_mod k _).symm
          _ < chunk_size n T * (k / chunk_size n T) + chunk_size n T := by
              have := Nat.mod_lt k hc
              omega
          _ = chunk_size n T * (k / chunk_size n T + 1) := (Nat.mul_succ _ _).symm
          _ = (k / chunk_size n T + 1) * chunk_size n T := Nat.mul_comm _ _
      · refine ⟨T - 1, by omega, not_lt.mp hcase, ?_⟩
        rw [chunk_end_last n T]
        exact hk
    · rintro ⟨i, hi, _, h2⟩
      exact lt_of_lt_of_le h2 (chunk_end_le_length n T i hi)

theorem chunks_partition_range_witness :
    1 ≤ 4 ∧
    ((∀ i j k, i < 4 → j < 4 → chunk_start 10 4 i ≤ k → k < chunk_end 10 4 i →
      chunk_start 10 4 j ≤ k → k < chunk_end 10 4 j → i = j) ∧
    (∀ k, k < 10 ↔ ∃ i, i < 4 ∧ chunk_start 10 4 i ≤ k ∧ k < chunk_end 10 4 i) ∧
    chunk_end 10 4 (4 - 1) = 10) :=
  ⟨by decide, chunks_partition_range 10 4 (by decide)⟩

/-- C4: for every thread count `T ≥ 1`, the empty array sums to `0` under
every strategy, and a one-element array (with its element in `int` range)
sums to that element under every strategy, regardless of `T`. -/
theorem degenerate_sizes (T : Nat) (x : Int) (hT : 1 ≤ T)
    (hlo : -2147483648 ≤ x) (hhi : x < 2147483648) :
    (single_thread_sum [] = some 0 ∧ multi_thread_sum_lock [] T = some 0 ∧
     multi_thread_sum_atomic [] T = some 0 ∧ multi_thread_sum_reduce [] T = some 0) ∧
    (single_thread_sum [x] = some x ∧ multi_thread_sum_lock [x] T = some x ∧
     multi_thread_sum_atomic [x] T = some x ∧ multi_thread_sum_reduce [x] T = some x) := by
  have hnil : rsum ([] : List Int) 0 ([] : List Int).length = 0 :=
    rsum_neg _ _ _ (by simp)
  have hone : rsum [x] 0 ([x] : List Int).length = x := by
    rw [List.length_singleton, rsum_pos _ _ _ Nat.one_pos, rsum_neg _ _ _ (lt_irrefl 1)]
    simp
  constructor
  · rw [single_thread_sum_eq, multi_thread_sum_lock_eq _ T hT,
      multi_thread_sum_atomic_eq _ T hT, multi_thread_sum_reduce_eq _ T hT, hnil, wrap32_zero]
    exact ⟨rfl, rfl, rfl, rfl⟩
  · rw [single_thread_sum_eq, multi_thread_sum_lock_eq _ T hT,
      multi_thread_sum_atomic_eq _ T hT, multi_thread_sum_reduce_eq _ T hT, hone,
      wrap32_eq_self x hlo hhi]
    exact ⟨rfl, rfl, rfl, rfl⟩

theorem degenerate_sizes_witness :
    (1 ≤ 5 ∧ -2147483648 ≤ (9 : Int) ∧ (9 : Int) < 2147483648) ∧
    ((single_thread_sum [] = some 0 ∧ multi_thread_sum_lock [] 5 = some 0 ∧
      multi_thread_sum_atomic [] 5 = some 0 ∧ multi_thread_sum_reduce [] 5 = some 0) ∧
     (single_thread_sum [9] = some 9 ∧ multi_thread_sum_lock [9] 5 = some 9 ∧
      multi_thread_sum_atomic [9] 5 = some 9 ∧ multi_thread_sum_reduce [9] 5 = some 9)) :=
  ⟨⟨by decide, by decide, by decide⟩,
    degenerate_sizes 5 9 (by decide) (by decide) (by decide)⟩

/-- C5: summation is wrapping 32-bit addition in all four strategies: for
any array whose true mathematical sum leaves the `int` range, every
strategy returns the same wrapped value as the single-threaded baseline,
namely the true sum reduced modulo `2^32` into the signed range, and that
value differs from the true sum (overflow is silent). -/
theorem overflow_wraps_identically (arr : List Int) (T : Nat) (hT : 1 ≤ T)
    (hover : arr.sum < -2147483648 ∨ 2147483648 ≤ arr.sum) :
    single_thread_sum arr = some (wrap32 arr.sum) ∧
    multi_thread_sum_lock arr T = single_thread_sum arr ∧
    multi_thread_sum_atomic arr T = single_thread_sum arr ∧
    multi_thread_sum_reduce arr T = single_thread_sum arr ∧
    wrap32 arr.sum ≠ arr.sum := by
  refine ⟨?_, ?_, ?_, ?_, ?_⟩
  · rw [single_thread_sum_eq arr, rsum_full arr]
  · rw [multi_thread_sum_lock_eq arr T hT, single_thread_sum_eq arr]
  · rw [multi_thread_sum_atomic_eq arr T hT, single_thread_sum_eq arr]
  · rw [multi_thread_sum_reduce_eq arr T hT, single_thread_sum_eq arr]
  · intro hEq
    have hr := wrap32_range arr.sum
    rw [hEq] at hr
    omega

theorem overflow_wraps_identically_witness :
    (1 ≤ 2 ∧
      (([2000000000, 2000000000] : List Int).sum < -2147483648 ∨
        2147483648 ≤ ([2000000000, 2000000000] : List Int).sum)) ∧
    (single_thread_sum [2000000000, 2000000000] =
        some (wrap32 ([2000000000, 2000000000] : List Int).sum) ∧
     multi_thread_sum_lock [2000000000, 2000000000] 2 =
        single_thread_sum [2000000000, 2000000000] ∧
     multi_thread_sum_atomic [2000000000, 2000000000] 2 =
        single_thread_sum [2000000000, 2000000000] ∧
     multi_thread_sum_reduce [2000000000, 2000000000] 2 =
        single_thread_sum [2000000000, 2000000000] ∧
     wrap32 ([2000000000, 2000000000] : List Int).sum ≠
        ([2000000000, 2000000000] : List Int).sum) :=
  ⟨⟨by decide, by decide⟩,
    overflow_wraps_identically [2000000000, 2000000000] 2 (by decide) (by decide)⟩

/-- C8: the concrete scenario `arr = [1,2,3,4,5,6,7,8]`, `T = 4`: the
partition yields chunks `[0,2), [2,4), [4,6), [6,8)`, the per-worker local
sums are `3, 7, 11, 15`, and the baseline and all three parallel
strategies return `36`. -/
theorem scenario_eight_elements :
    (chunk_start 8 4 0 = 0 ∧ chunk_end 8 4 0 = 2) ∧
    (chunk_start 8 4 1 = 2 ∧ chunk_end 8 4 1 = 4) ∧
    (chunk_start 8 4 2 = 4 ∧ chunk_end 8 4 2 = 6) ∧
    (chunk_start 8 4 3 = 6 ∧ chunk_end 8 4 3 = 8) ∧
    thread_sum_reduce 0 [1, 2, 3, 4, 5, 6, 7, 8] 4 = some 3 ∧
    thread_sum_reduce 1 [1, 2, 3, 4, 5, 6, 7, 8] 4 = some 7 ∧
    thread_sum_reduce 2 [1, 2, 3, 4, 5, 6, 7, 8] 4 = some 11 ∧
    thread_sum_reduce 3 [1, 2, 3, 4, 5, 6, 7, 8] 4 = some 15 ∧
    single_thread_sum [1, 2, 3, 4, 5, 6, 7, 8] = some 36 ∧
    multi_thread_sum_lock [1, 2, 3, 4, 5, 6, 7, 8] 4 = some 36 ∧
    multi_thread_sum_atomic [1, 2, 3, 4, 5, 6, 7, 8] 4 = some 36 ∧
    multi_thread_sum_reduce [1, 2, 3, 4, 5, 6, 7, 8] 4 = some 36 := by
  refine ⟨by decide, by decide, by decide, by decide, ?_, ?_, ?_, ?_, ?_, ?_, ?_, ?_⟩ <;>
    simp [single_thread_sum, multi_thread_sum_lock, multi_thread_sum_atomic,
      multi_thread_sum_reduce, lockJoin, atomicJoin, reduceJoin, thread_sum_lock,
      thread_sum_atomic, thread_sum_reduce, sumRange, i32add, wrap32,
      chunk_start, chunk_end, chunk_size]

/-- C9: no summation strategy mutates the input array: in the
state-passing embedding, whenever a strategy returns, the array component
of the returned state equals the input array, element for element. -/
theorem summation_preserves_array (arr : List Int) (T : Nat) :
    (∀ p, single_thread_sum_st arr = some p → p.2 = arr) ∧
    (∀ p, multi_thread_sum_lock_st arr T = some p → p.2 = arr) ∧
    (∀ p, multi_thread_sum_atomic_st arr T = some p → p.2 = arr) ∧
    (∀ p, multi_thread_sum_reduce_st arr T = some p → p.2 = arr) := by
  refine ⟨?_, ?_, ?_, ?_⟩
  · intro p hp
    rw [single_thread_sum_st, sumRangeSt_eq arr 0 arr.length 0] at hp
    cases hv : sumRange arr 0 arr.length 0 with
    | none => rw [hv] at hp; simp at hp
    | some r =>
      rw [hv] at hp
      simp only [Option.map_some'] at hp
      cases hp
      rfl
  · intro p hp
    rw [multi_thread_sum_lock_st, lockJoinSt_eq T 0 0 arr] at hp
    cases hv : lockJoin arr T 0 0 with
    | none => rw [hv] at hp; simp at hp
    | some r =>
      rw [hv] at hp
      simp only [Option.map_some'] at hp
      cases hp
      rfl
  · intro p hp
    rw [multi_thread_sum_atomic_st] at hp
    by_cases hT : T = 0
    · rw [if_pos hT] at hp
      cases hp
    · rw [if_neg hT, lockJoinSt_eq T 0 0 arr] at hp
      cases hv : lockJoin arr T 0 0 with
      | none => rw [hv] at hp; simp at hp
      | some r =>
        rw [hv] at hp
        simp only [Option.map_some'] at hp
        cases hp
        rfl
  · intro p hp
    rw [multi_thread_sum_reduce_st] at hp
    by_cases hT : T = 0
    · rw [if_pos hT] at hp
      cases hp
    · rw [if_neg hT, reduceJoinSt_eq T 0 arr] at hp
      cases hv : reduceJoin arr T 0 with
      | none => rw [hv] at hp; simp at hp
      | some ps =>
        rw [hv] at hp
        simp only [Option.map_some'] at hp
        cases hp
        rfl

theorem summation_preserves_array_witness :
    single_thread_sum_st [5] = some (5, [5]) ∧ ((5 : Int), ([5] : List Int)).2 = [5] :=
  ⟨by simp [single_thread_sum_st, sumRangeSt, i32add, wrap32],
    (summation_preserves_array [5] 1).1 (5, [5])
      (by simp [single_thread_sum_st, sumRangeSt, i32add, wrap32])⟩

/-- C10: when the thread count exceeds a positive array length, the chunk
size truncates to 0: every worker before the last receives the empty chunk
`[0, 0)`, the last worker receives the whole range `[0, n)`, and its local
sum is the whole single-threaded sum. -/
theorem oversubscribed_threads_single_worker (arr : List Int) (n T : Nat)
    (hn : 0 < n) (hT : n < T) :
    (∀ i, i < T - 1 → chunk_start n T i = 0 ∧ chunk_end n T i = 0) ∧
    chunk_start n T (T - 1) = 0 ∧ chunk_end n T (T - 1) = n ∧
    (n = arr.length → thread_sum_reduce (T - 1) arr T = single_thread_sum arr) := by
  have hc : chunk_size n T = 0 := Nat.div_eq_of_lt hT
  refine ⟨?_, ?_, chunk_end_last n T, ?_⟩
  · intro i hi
    refine ⟨?_, ?_⟩
    · unfold chunk_start
      rw [hc, Nat.mul_zero]
    · unfold chunk_end
      rw [if_neg (by omega : ¬ i = T - 1), hc, Nat.mul_zero]
  · unfold chunk_start
    rw [hc, Nat.mul_zero]
  · intro hlen
    have hstart : chunk_start arr.length T (T - 1) = 0 := by
      unfold chunk_start
      rw [← hlen, hc, Nat.mul_zero]
    unfold thread_sum_reduce single_thread_sum
    rw [hstart, chunk_end_last arr.length T]

theorem oversubscribed_threads_single_worker_witness :
    (0 < 2 ∧ 2 < 5) ∧
    ((∀ i, i < 5 - 1 → chunk_start 2 5 i = 0 ∧ chunk_end 2 5 i = 0) ∧
     chunk_start 2 5 (5 - 1) = 0 ∧ chunk_end 2 5 (5 - 1) = 2 ∧
     (2 = ([4, 6] : List Int).length →
       thread_sum_reduce (5 - 1) [4, 6] 5 = single_thread_sum [4, 6])) :=
  ⟨⟨by decide, by decide⟩,
    oversubscribed_threads_single_worker [4, 6] 2 5 (by decide) (by decide)⟩

/-- C6 counterexample: with both options absent and the hardware
concurrency hint unavailable (value 0), parse_args returns thread = 0:
there is no fallback to 1, refuting "the returned thread count is always
at least 1". -/
theorem parse_args_no_thread_fallback_cex :
    parse_args false false "" "" 0 = some ((1000000, 0), true) ∧ ¬ (1 : Int) ≤ 0 :=
  ⟨rfl, by decide⟩

/-- C6 (amended): when --size or --thread is absent, parse_args emits the
warning and returns the defaults size = 1,000,000 and thread = the raw
hardware concurrency hint — with no fallback, so the returned thread count
is 0 (not 1) when the hint is unavailable. -/
theorem parse_args_missing_defaults (sp tp : Bool) (ss ts : String) (hc : Nat)
    (h : sp = false ∨ tp = false) :
    parse_args sp tp ss ts hc = some ((1000000, (hc : Int)), true) := by
  rcases h with h | h <;> subst h <;> simp [parse_args]

theorem parse_args_missing_defaults_witness :
    (false = false ∨ true = false) ∧
    parse_args false true "" "10" 4 = some ((1000000, ((4 : Nat) : Int)), true) :=
  ⟨Or.inl rfl, parse_args_missing_defaults false true "" "10" 4 (Or.inl rfl)⟩

/-- C7 counterexample: the command line `--size abc --thread 4` has a
malformed size value; parse_args reaches the error branch (the uncaught
std::invalid_argument from std::stoi terminates the process), refuting
"argument parse errors never cause a throw, abort, or non-zero exit". -/
theorem parse_args_malformed_not_recovered_cex :
    parse_args true true "abc" "4" 8 = none := by decide

/-- C7 (amended): a missing option is recovered with defaults and a
warning, but when both options are present and either value is malformed,
std::stoi throws an unhandled exception: parse_args reaches the error
branch instead of substituting defaults. -/
theorem parse_args_malformed_throws (ss ts : String) (hc : Nat)
    (h : stoi ss = none ∨ stoi ts = none) :
    parse_args true true ss ts hc = none := by
  show (match stoi ss, stoi ts with
    | some s, some t => some ((s, t), false)
    | _, _ => none) = none
  rcases h with h | h
  · rw [h]
  · rw [h]
    cases stoi ss <;> rfl

theorem parse_args_malformed_throws_witness :
    (stoi "abc" = none ∨ stoi "4" = none) ∧ parse_args true true "abc" "4" 2 = none :=
  ⟨Or.inl (by decide), parse_args_malformed_throws "abc" "4" 2 (Or.inl (by decide))⟩

end ParallelSummation
